import Mathlib

/-!
ExpenseFlow core: shallow embedding and verification

This file embeds the deterministic rule-based expense-extraction core of the
ExpenseFlow repository (the expense parser `extractAmounts` / `detectCategory` /
`extractDescription` / `parseExpenses`, and the receipt interpreter
`extractMoneyValues` / `findTotalAmount` / `findMerchant` / `findReceiptDate` /
`pickCategoryFromMerchant` / `parseReceiptImage`) in Lean, and proves or refutes
the specification claims about it.

Modelling conventions:
* JS strings are modelled as `List Char`; offsets are character offsets
  (identical to JS UTF-16 offsets on the ASCII inputs relevant here).
* Monetary amounts are modelled exactly, in cents (`Nat`): a JS amount `v`
  corresponds to `v * 100` cents.  All source comparisons on amounts
  (`amount > 0`, `amount < 100000`) are exact at this granularity, so the
  bound `0 < v < 100000` becomes `0 < cents < 10000000`.
* Confidence values are modelled exactly, in hundredths (`Nat`): confidence
  `0.85` is `85`.  All source confidences are multiples of `0.05`, so this is
  exact; the threshold `confidence < 0.7` becomes `c < 70` and the range
  `[0, 1]` becomes `c ≤ 100` (`0 ≤ c` holds trivially for `Nat`).
* Impure values (fresh ids from `generateId`, the `new Date()` timestamp,
  `performance.now()` timings) are omitted from the model; the receipt date is
  kept as `Option RDate` with `none` standing for the impure current-time
  fallback.
* JS regular expressions are compiled by hand into total Lean functions that
  reproduce the source regex semantics (leftmost match, greedy/lazy
  quantifiers, the relevant backtracking) on the concrete patterns involved.
* Text scanners that skip over consumed matches recurse on an explicit fuel
  counter (initialised to the text length, an upper bound on the number of
  scan steps, each of which consumes at least one character) so that all
  definitions reduce inside the kernel.
-/

/-- JS `\s` / `trim` whitespace, restricted to the ASCII range (the inputs of
interest are ASCII; JS also accepts further Unicode space characters). -/
def jsWs (c : Char) : Bool :=
  c = ' ' || c = '\t' || c = '\n' || c = '\r' || c = '\x0b' || c = '\x0c'

/-- JS `String.prototype.trim` on a character list. -/
def jsTrim (cs : List Char) : List Char :=
  ((cs.dropWhile jsWs).reverse.dropWhile jsWs).reverse

/-- JS `toLowerCase`, ASCII fragment (`Char.toLower` lowers exactly `A`–`Z`). -/
def jsLower (cs : List Char) : List Char := cs.map Char.toLower

/-- Exact prefix test: does `pat` occur at the head of `text`? -/
def headMatch : List Char → List Char → Bool
  | [], _ => true
  | _ :: _, [] => false
  | p :: ps, c :: cs => p = c && headMatch ps cs

/-- Case-insensitive (ASCII) prefix test. -/
def headMatchCI : List Char → List Char → Bool
  | [], _ => true
  | _ :: _, [] => false
  | p :: ps, c :: cs => p.toLower = c.toLower && headMatchCI ps cs

/-- JS `String.prototype.includes`: `pat` occurs as a contiguous substring. -/
def containsSub (pat : List Char) : List Char → Bool
  | [] => headMatch pat []
  | c :: cs => headMatch pat (c :: cs) || containsSub pat cs

/-- Numeric value of a digit character. -/
def digitVal (c : Char) : Nat := c.toNat - 48

/-- Value of a digit string (decimal). -/
def natOfDigits (ds : List Char) : Nat := ds.foldl (fun a c => 10 * a + digitVal c) 0

/-- One amount candidate produced by `extractAmounts`: the numeric value in
cents, the start offset of the whole regex match in the source text, and the
matched text itself (source field `match`). -/
structure AmountCand where
  amount : Nat
  index : Nat
  matchStr : List Char
deriving DecidableEq

/-- The numeric part of `AMOUNT_PATTERNS[0]`: `\d+(?:\.\d{2})?` at the head of
`rest` (greedy digit run, then the optional two-decimal suffix, also greedy; no
later constraint forces backtracking in pattern a).  Returns the value in cents
and the consumed length. -/
def numTail (rest : List Char) : Option (Nat × Nat) :=
  match rest.takeWhile Char.isDigit with
  | [] => none
  | d :: ds =>
    let n := (d :: ds).length
    match rest.drop n with
    | '.' :: d1 :: d2 :: _ =>
      if d1.isDigit && d2.isDigit then
        some (natOfDigits (d :: ds) * 100 + digitVal d1 * 10 + digitVal d2, n + 3)
      else some (natOfDigits (d :: ds) * 100, n)
    | _ => some (natOfDigits (d :: ds) * 100, n)

/-- Matcher for `\d+(?:\.\d{2})?\s*⟨suffix⟩` at the head of `rest`, for patterns b and c.
`sfx` recognises the suffix (`\s*dollars?` resp. `\s*(?:USD|usd)`) and returns
its consumed length.  Mirrors the JS backtracking: the optional `(?:\.\d{2})?`
is tried greedily first and dropped again if the suffix then fails; the greedy
`\d+` itself never has to give back digits (a digit can start neither `\s`,
`d`, `D`, `u` nor `U`). -/
def numSfxTail (sfx : List Char → Option Nat) (rest : List Char) : Option (Nat × Nat) :=
  match rest.takeWhile Char.isDigit with
  | [] => none
  | d :: ds =>
    let n := (d :: ds).length
    let withDD : Option (Nat × Nat) :=
      match rest.drop n with
      | '.' :: d1 :: d2 :: r3 =>
        if d1.isDigit && d2.isDigit then
          match sfx r3 with
          | some k =>
            some (natOfDigits (d :: ds) * 100 + digitVal d1 * 10 + digitVal d2, n + 3 + k)
          | none => none
        else none
      | _ => none
    match withDD with
    | some v => some v
    | none =>
      match sfx (rest.drop n) with
      | some k => some (natOfDigits (d :: ds) * 100, n + k)
      | none => none

/-- Suffix of pattern b: `\s*dollars?` (case-insensitive).  The greedy `\s*`
never backtracks (a whitespace character is not `d`/`D`), and the greedy `s?`
has no later constraint. -/
def dollarSfx (r : List Char) : Option Nat :=
  let w := (r.takeWhile jsWs).length
  let r1 := r.drop w
  if headMatchCI "dollar".toList r1 then
    match r1.drop 6 with
    | c :: _ => if c = 's' || c = 'S' then some (w + 7) else some (w + 6)
    | [] => some (w + 6)
  else none

/-- Suffix of pattern c: `\s*(?:USD|usd)` (case-sensitive alternation). -/
def usdSfx (r : List Char) : Option Nat :=
  let w := (r.takeWhile jsWs).length
  let r1 := r.drop w
  if headMatch "USD".toList r1 || headMatch "usd".toList r1 then some (w + 3) else none

/-- Scanner for `AMOUNT_PATTERNS[0]`, `/\$(\d+(?:\.\d{2})?)/g`: left-to-right,
non-overlapping, resuming after each match, with the sanity filter
`0 < amount < 100000` applied as in the source before pushing.  `fuel` bounds
the number of steps; each step consumes at least one character, so
`fuel = cs.length` is always sufficient. -/
def scanDollarF : Nat → Nat → List Char → List AmountCand
  | 0, _, _ => []
  | _ + 1, _, [] => []
  | fuel + 1, i, c :: rest =>
    if c = '$' then
      match numTail rest with
      | some (cents, len) =>
        (if 0 < cents && cents < 10000000 then
          [⟨cents, i, '$' :: rest.take len⟩] else [])
        ++ scanDollarF fuel (i + 1 + len) (rest.drop len)
      | none => scanDollarF fuel (i + 1) rest
    else scanDollarF fuel (i + 1) rest

/-- Scanner for patterns b/c, `/(\d+(?:\.\d{2})?)\s*dollars?/gi` resp.
`/(\d+(?:\.\d{2})?)\s*(?:USD|usd)/g`: the match starts at the first digit. -/
def scanNumSfxF (sfx : List Char → Option Nat) : Nat → Nat → List Char → List AmountCand
  | 0, _, _ => []
  | _ + 1, _, [] => []
  | fuel + 1, i, c :: rest =>
    if c.isDigit then
      match numSfxTail sfx (c :: rest) with
      | some (cents, len) =>
        (if 0 < cents && cents < 10000000 then
          [⟨cents, i, (c :: rest).take len⟩] else [])
        ++ scanNumSfxF sfx fuel (i + len) ((c :: rest).drop len)
      | none => scanNumSfxF sfx fuel (i + 1) rest
    else scanNumSfxF sfx fuel (i + 1) rest

/-- All matches of the three `AMOUNT_PATTERNS` over the text, in pattern-scan
order (all matches of pattern a, then of b, then of c, each left to right),
already filtered by the sanity bound, exactly as `extractAmounts` accumulates
`results` before sorting. -/
def allAmountMatches (cs : List Char) : List AmountCand :=
  scanDollarF cs.length 0 cs
    ++ scanNumSfxF dollarSfx cs.length 0 cs
    ++ scanNumSfxF usdSfx cs.length 0 cs

/-- Stable insertion step for `results.sort((a, b) => a.index - b.index)`:
`c` is placed before the first element whose index is not smaller, so elements
with equal index keep their original relative order, as JS `Array.prototype.sort`
(stable per the ECMAScript specification) does. -/
def insertByIndex (c : AmountCand) : List AmountCand → List AmountCand
  | [] => [c]
  | d :: ds => if d.index < c.index then d :: insertByIndex c ds else c :: d :: ds

/-- Stable sort by ascending `index` (insertion sort). -/
def sortByIndex : List AmountCand → List AmountCand
  | [] => []
  | c :: rest => insertByIndex c (sortByIndex rest)

/-- The dedup pass
`.filter((item, index, arr) => index === 0 || item.index !== arr[index-1].index)`:
each element is compared with its immediate predecessor in the sorted array. -/
def dedupRun (prev : AmountCand) : List AmountCand → List AmountCand
  | [] => []
  | c :: rest => if c.index = prev.index then dedupRun c rest else c :: dedupRun c rest

/-- See `dedupRun`. -/
def dedupByIndex : List AmountCand → List AmountCand
  | [] => []
  | c :: rest => c :: dedupRun c rest

/-- Model of `extractAmounts`: union the pattern matches, sort by start offset (stably),
and drop candidates sharing the offset of their predecessor. -/
def extractAmounts (cs : List Char) : List AmountCand :=
  dedupByIndex (sortByIndex (allAmountMatches cs))

/-! ## Category classifier -/

/-- The expense category enumeration from `types/expense.ts`. -/
inductive Category where
  | food | transport | shopping | entertainment | utilities | health | travel | other
deriving DecidableEq

/-- Table `CATEGORY_KEYWORDS`, in object-literal insertion order (the iteration order
of `Object.entries` for string keys). -/
def CATEGORY_KEYWORDS : List (Category × List (List Char)) :=
  [ (Category.food,
      ["lunch", "dinner", "breakfast", "coffee", "food", "restaurant", "meal",
       "snack", "pizza", "burger", "groceries", "grocery", "eat", "eating"].map
        String.toList),
    (Category.transport,
      ["uber", "lyft", "taxi", "fuel", "gas", "petrol", "parking", "bus",
       "train", "metro", "subway", "transport", "toll"].map String.toList),
    (Category.shopping,
      ["amazon", "shopping", "clothes", "shoes", "store", "mall", "bought",
       "purchase"].map String.toList),
    (Category.entertainment,
      ["movie", "netflix", "spotify", "concert", "game", "theater",
       "entertainment", "music", "streaming"].map String.toList),
    (Category.utilities,
      ["electricity", "water", "internet", "phone", "bill", "utility",
       "utilities", "rent", "insurance"].map String.toList),
    (Category.health,
      ["doctor", "medicine", "pharmacy", "hospital", "health", "gym",
       "fitness", "medical", "dentist"].map String.toList),
    (Category.travel,
      ["flight", "hotel", "airbnb", "vacation", "trip", "travel",
       "booking"].map String.toList),
    (Category.other, []) ]

/-- The inner keyword loop of `detectCategory`: each keyword of the category
contributes its length once if it occurs in the lowercased text. -/
def scoreKeywords (lower : List Char) (kws : List (List Char)) : Nat :=
  kws.foldl (fun s k => if containsSub k lower then s + k.length else s) 0

/-- Model of `detectCategory`: iterate the category table in insertion order, skip
`other`, keep the first category whose score strictly exceeds the running
maximum, then derive the confidence (`min(0.95, 0.6 + score * 0.05)` when the
winning score is positive, `0.4` otherwise), in hundredths. -/
def detectCategory (text : List Char) : Category × Nat :=
  let lower := jsLower text
  let best := CATEGORY_KEYWORDS.foldl
    (fun acc e =>
      if e.1 = Category.other then acc
      else
        let score := scoreKeywords lower e.2
        if acc.2 < score then (e.1, score) else acc)
    (Category.other, 0)
  (best.1, if 0 < best.2 then min 95 (60 + best.2 * 5) else 40)

/-- Claim-side reading of the classifier: the per-category scores (for every
category other than `other`, in table order). -/
def categoryScores (text : List Char) : List (Category × Nat) :=
  (CATEGORY_KEYWORDS.filter (fun e => decide (e.1 ≠ Category.other))).map
    (fun e => (e.1, scoreKeywords (jsLower text) e.2))

/-- Claim-side reading of the classifier: the highest score reached. -/
def maxScoreOf (text : List Char) : Nat :=
  (categoryScores text).foldr (fun p m => max p.2 m) 0

/-! ## Description extractor

`extractDescription` first tries the after-the-amount regex
`/^\s*(?:for|on|at)?\s*([^,;+]+?)(?=\s*(?:and|,|\+|$|\$|\d+\s*(?:dollars?|USD)))/i`,
then falls back to the last delimiter-separated segment before the amount,
cleans the result up, and finally salvages tokens from the whole text. -/

/-- JS `\w` (word character): ASCII letter, digit, or underscore. -/
def wordChar (c : Char) : Bool := c.isAlpha || c.isDigit || c = '_'

/-- Is there a `\b` word boundary between `prev` (the character before the
current position, `none` at the start of the string) and a following word
character?  (Callers only test this where the following character is a word
character.) -/
def boundaryBefore (prev : Option Char) : Bool :=
  match prev with
  | none => true
  | some p => !wordChar p

/-- Boundary `\b` after a match: the next character (if any) is not a word character. -/
def boundaryAfter : List Char → Bool
  | [] => true
  | c :: _ => !wordChar c

/-- The alternation inside the lookahead of the after-amount regex:
`(?:and|,|\+|$|\$|\d+\s*(?:dollars?|USD))`, under the `i` flag (so `and`,
`dollar` and `USD` all match case-insensitively).  `$` is the end-of-input
anchor, `\$` a literal dollar sign.  The greedy `\d+` and `\s*` never
backtrack usefully (a digit or space can satisfy none of the follow-ups). -/
def lookaheadAlt (cs : List Char) : Bool :=
  headMatchCI "and".toList cs ||
  (match cs with
   | [] => true
   | ',' :: _ => true
   | '+' :: _ => true
   | '$' :: _ => true
   | _ => false) ||
  (match cs.takeWhile Char.isDigit with
   | [] => false
   | d :: ds =>
     let r := cs.drop (d :: ds).length
     let r1 := r.drop (r.takeWhile jsWs).length
     headMatchCI "dollar".toList r1 || headMatchCI "usd".toList r1)

/-- The lookahead `(?=\s*ALT)`: some prefix of the whitespace run (the greedy
`\s*` backtracks through all of them) is followed by the alternation.  Order
of exploration does not matter for a boolean lookahead. -/
def lookaheadOk (cs : List Char) : Bool :=
  (List.range ((cs.takeWhile jsWs).length + 1)).any (fun k => lookaheadAlt (cs.drop k))

/-- The lazy capture group `([^,;+]+?)` followed by the lookahead: take one
character at a time (failing on the delimiters `,`, `;`, `+`), returning the
shortest group after which the lookahead holds. -/
def lazyGroup (taken : List Char) : List Char → Option (List Char)
  | [] => none
  | c :: rest =>
    if c = ',' || c = ';' || c = '+' then none
    else if lookaheadOk rest then some (c :: taken).reverse
    else lazyGroup (c :: taken) rest

/-- The whole after-amount regex, anchored at the start of `cs`; returns the
text captured by group 1 on success.  Choice points are explored in JS
backtracking order: the greedy `\s*` from longest to shortest, the optional
filler alternation in order `for`, `on`, `at`, then empty, the second greedy
`\s*` from longest to shortest, the lazy group from shortest to longest. -/
def afterRegexMatch (cs : List Char) : Option (List Char) :=
  ((List.range ((cs.takeWhile jsWs).length + 1)).reverse).findSome? (fun w1 =>
    let r1 := cs.drop w1
    (fillerLens r1).findSome? (fun fl =>
      let r2 := r1.drop fl
      ((List.range ((r2.takeWhile jsWs).length + 1)).reverse).findSome? (fun w2 =>
        lazyGroup [] (r2.drop w2))))
where
  /-- Consumed lengths for `(?:for|on|at)?`, in trial order. -/
  fillerLens (r : List Char) : List Nat :=
    (if headMatchCI "for".toList r then [3] else []) ++
    (if headMatchCI "on".toList r then [2] else []) ++
    (if headMatchCI "at".toList r then [2] else []) ++ [0]

/-- One delimiter match of `/(?:,|\band\b|\+|;)/i` at the current position
(`prev` is the preceding character); returns the matched length.  The four
alternatives begin with distinct characters, so trial order is immaterial. -/
def delimAt (prev : Option Char) (cs : List Char) : Option Nat :=
  match cs with
  | ',' :: _ => some 1
  | '+' :: _ => some 1
  | ';' :: _ => some 1
  | _ =>
    if boundaryBefore prev && headMatchCI "and".toList cs && boundaryAfter (cs.drop 3)
    then some 3 else none

/-- JS `String.prototype.split` on the delimiter regex: scan left to right,
emitting a segment at each match and resuming after it. -/
def splitDelimsF : Nat → Option Char → List Char → List Char → List (List Char)
  | 0, _, acc, _ => [acc.reverse]
  | _ + 1, _, acc, [] => [acc.reverse]
  | fuel + 1, prev, acc, c :: rest =>
    match delimAt prev (c :: rest) with
    | some n =>
      acc.reverse :: splitDelimsF fuel ((c :: rest).take n).getLast? [] ((c :: rest).drop n)
    | none => splitDelimsF fuel (some c) (c :: acc) rest

/-- See `splitDelimsF`. -/
def splitDelims (cs : List Char) : List (List Char) := splitDelimsF cs.length none [] cs

/-- The cleanup `replace(/^\s*(?:spent|paid|for|on|at)\s*/i, '')`: the filler
verb is required, so a string with no leading filler is unchanged.  The greedy
`\s*` runs cannot backtrack (no filler verb starts with whitespace). -/
def stripLeadFiller (cs : List Char) : List Char :=
  let w := (cs.takeWhile jsWs).length
  let r := cs.drop w
  let fl : Option Nat :=
    if headMatchCI "spent".toList r then some 5
    else if headMatchCI "paid".toList r then some 4
    else if headMatchCI "for".toList r then some 3
    else if headMatchCI "on".toList r then some 2
    else if headMatchCI "at".toList r then some 2
    else none
  match fl with
  | some n =>
    let r1 := r.drop n
    r1.drop (r1.takeWhile jsWs).length
  | none => cs

/-- Model of `replace(/\s+/g, ' ')`: collapse every whitespace run to a single space. -/
def collapseWsF : Nat → List Char → List Char
  | 0, _ => []
  | _ + 1, [] => []
  | fuel + 1, c :: rest =>
    if jsWs c then
      ' ' :: collapseWsF fuel (rest.dropWhile jsWs)
    else c :: collapseWsF fuel rest

/-- See `collapseWsF`. -/
def collapseWs (cs : List Char) : List Char := collapseWsF cs.length cs

/-- Model of `text.replace(AMOUNT_PATTERNS[0], '')`: delete every match of the
currency-symbol pattern (no sanity-bound filter here — `replace` removes all
matches). -/
def removeDollarMatchesF : Nat → List Char → List Char
  | 0, _ => []
  | _ + 1, [] => []
  | fuel + 1, c :: rest =>
    if c = '$' then
      match numTail rest with
      | some (_, len) => removeDollarMatchesF fuel (rest.drop len)
      | none => c :: removeDollarMatchesF fuel rest
    else c :: removeDollarMatchesF fuel rest

/-- See `removeDollarMatchesF`. -/
def removeDollarMatches (cs : List Char) : List Char := removeDollarMatchesF cs.length cs

/-- Model of `split(/\s+/)`: segments between maximal whitespace runs (a leading run
yields an empty first segment, as in JS). -/
def wsSplitF : Nat → List Char → List Char → List (List Char)
  | 0, acc, _ => [acc.reverse]
  | _ + 1, acc, [] => [acc.reverse]
  | fuel + 1, acc, c :: rest =>
    if jsWs c then acc.reverse :: wsSplitF fuel [] (rest.dropWhile jsWs)
    else wsSplitF fuel (c :: acc) rest

/-- See `wsSplitF`. -/
def wsSplit (cs : List Char) : List (List Char) := wsSplitF cs.length [] cs

/-- Model of `segment.charAt(0).toUpperCase() + segment.slice(1)`. -/
def capitalize : List Char → List Char
  | [] => []
  | c :: rest => c.toUpper :: rest

/-- Model of `extractDescription` (the unused `nextAmount` parameter of the source is
omitted).  `a` must be a candidate for `text`. -/
def extractDescription (text : List Char) (a : AmountCand) : List Char :=
  let beforeAmount := text.take a.index
  let afterAmount := text.drop (a.index + a.matchStr.length)
  let segment0 : List Char :=
    match afterRegexMatch afterAmount with
    | some g => if (jsTrim g).isEmpty then beforeLast beforeAmount else jsTrim g
    | none => beforeLast beforeAmount
  let segment1 := jsTrim (collapseWs (stripLeadFiller segment0))
  let segment2 :=
    if segment1.isEmpty || segment1.length < 2 then
      let fullContext := jsTrim (removeDollarMatches text)
      let words := (wsSplit fullContext).filter (fun w => 2 < w.length)
      let joined := joinSpace (words.take 3)
      if joined.isEmpty then "Expense".toList else joined
    else segment1
  capitalize segment2
where
  /-- The before-the-amount fallback: last segment of the delimiter split. -/
  beforeLast (cs : List Char) : List Char := jsTrim ((splitDelims cs).getLast?.getD [])
  /-- `Array.prototype.join(' ')`. -/
  joinSpace : List (List Char) → List Char
    | [] => []
    | [w] => w
    | w :: ws => w ++ ' ' :: joinSpace ws

/-! ## Expense segmenter (`parseExpenses`) -/

/-- A calendar date as the receipt date locator assembles it, before the JS
`Date` constructor normalises out-of-range components: `month` is 1-based and
is stored exactly as the locator computes it (it may exceed 12 when the
locator misbehaves; `new Date` would then roll the date over). -/
structure RDate where
  year : Nat
  month : Nat
  day : Nat
deriving DecidableEq

/-- Structure `ParsedExpense` from `types/expense.ts`, without the impure fields: the
fresh `id` is omitted, and `date` is `none` where the source stores the impure
`new Date()` current time. -/
structure ParsedExpense where
  amount : Nat
  description : List Char
  category : Category
  confidence : Nat
  needsReview : Bool
  date : Option RDate
deriving DecidableEq

/-- Structure `ParsingResult` from `types/expense.ts`, without the impure
`processingTime`. -/
structure ParsingResult where
  success : Bool
  expenses : List ParsedExpense
  rawInput : List Char
deriving DecidableEq

/-- The per-candidate body of the `amounts.map` in `parseExpenses`. -/
def mkExpense (trimmed : List Char) (a : AmountCand) : ParsedExpense :=
  let description := extractDescription trimmed a
  let dc := detectCategory description
  { amount := a.amount
    description := description
    category := dc.1
    confidence := dc.2
    needsReview := decide (dc.2 < 70)
    date := none }

/-- Model of `parseExpenses`: trim; fail on empty input; fail when no amount candidate
is found; otherwise map every candidate to a `ParsedExpense`. -/
def parseExpenses (input : List Char) : ParsingResult :=
  let trimmed := jsTrim input
  if trimmed.isEmpty then ⟨false, [], input⟩
  else
    let amounts := extractAmounts trimmed
    if amounts.isEmpty then ⟨false, [], input⟩
    else ⟨true, amounts.map (mkExpense trimmed), input⟩

/-! ## Receipt interpreter -/

/-- Keyword table `TOTAL_KEYWORDS`. -/
def TOTAL_KEYWORDS : List (List Char) :=
  ["total", "grand total", "amount due", "balance due", "total due",
   "amount received", "card payment", "net amount", "payable", "bill amount",
   "amount"].map String.toList

/-- Noise table `IGNORE_MERCHANT_LINES`. -/
def IGNORE_MERCHANT_LINES : List (List Char) :=
  ["thank you", "thanks", "receipt", "invoice", "total", "subtotal", "tax",
   "gst", "cgst", "sgst", "cess", "visa", "mastercard", "amex", "cash",
   "change", "balance", "due", "payment", "debit", "credit", "tip",
   "gratuity", "rounding", "discount"].map String.toList

/-- Split at every newline (`text.split(/\r?\n/)`: a `\r` directly before the
`\n` belongs to the separator; any other `\r` stays in the segment). -/
def splitNl : List Char → List (List Char)
  | [] => [[]]
  | '\n' :: rest => [] :: splitNl rest
  | c :: rest =>
    match splitNl rest with
    | s :: ss => (c :: s) :: ss
    | [] => [[c]]

/-- Remove the `\r` that `split('\n')` leaves at a segment end. -/
def stripCR (l : List Char) : List Char :=
  match l.reverse with
  | '\r' :: r => r.reverse
  | _ => l

/-- Model of `text.split(/\r?\n/).map(line => line.trim()).filter(Boolean)`. -/
def receiptLines (cs : List Char) : List (List Char) :=
  ((splitNl cs).map (fun l => jsTrim (stripCR l))).filter (fun l => !l.isEmpty)

/-- The token structure of `/\d{1,3}(?:,\d{3})*(?:\.\d{2})?/`:
`(?:,\d{3})*` collects the digits of each full `,ddd` group (the loop stops at
the first group that does not match; nothing after it backtracks). Returns the
collected digits and the consumed length. -/
def commaGroups : List Char → List Char × Nat
  | ',' :: a :: b :: c :: r =>
    if a.isDigit && b.isDigit && c.isDigit then
      let (ds, n) := commaGroups r
      (a :: b :: c :: ds, 4 + n)
    else ([], 0)
  | _ => ([], 0)

/-- One money token at a digit: `\d{1,3}` takes at most three digits of the
run, then the comma groups, then the optional two-decimal suffix.  Returns the
value in cents (`parseMoney` strips the commas and parses the rest exactly)
and the consumed length. -/
def moneyToken (cs : List Char) : Nat × Nat :=
  let d1 := (cs.takeWhile Char.isDigit).take 3
  let (gds, glen) := commaGroups (cs.drop d1.length)
  let intDigits := d1 ++ gds
  match cs.drop (d1.length + glen) with
  | '.' :: x :: y :: _ =>
    if x.isDigit && y.isDigit then
      (natOfDigits intDigits * 100 + digitVal x * 10 + digitVal y, d1.length + glen + 3)
    else (natOfDigits intDigits * 100, d1.length + glen)
  | _ => (natOfDigits intDigits * 100, d1.length + glen)

/-- Scanner for `text.match(/\d{1,3}(?:,\d{3})*(?:\.\d{2})?/g)`. -/
def scanMoneyF : Nat → List Char → List Nat
  | 0, _ => []
  | _ + 1, [] => []
  | fuel + 1, c :: rest =>
    if c.isDigit then
      let (cents, len) := moneyToken (c :: rest)
      cents :: scanMoneyF fuel ((c :: rest).drop len)
    else scanMoneyF fuel rest

/-- Model of `extractMoneyValues`: all money tokens of the text, kept when positive
(`parseMoney` cannot yield `NaN` on a token of this shape; note there is no
upper sanity bound here, unlike `extractAmounts`). -/
def extractMoneyValues (cs : List Char) : List Nat :=
  (scanMoneyF cs.length cs).filter (fun v => decide (0 < v))

/-- The keyword filter for the prioritised pass of `findTotalAmount`. -/
def isPrioritizedLine (l : List Char) : Bool :=
  let lower := jsLower l
  TOTAL_KEYWORDS.any (fun k => containsSub k lower) &&
    !containsSub "subtotal".toList lower && !containsSub "taxable".toList lower

/-- The bottom-up line loops of `findTotalAmount`: the last money value of the
last line (in document order) that has one. -/
def lastLineMoney : List (List Char) → Option Nat
  | [] => none
  | l :: ls =>
    match lastLineMoney ls with
    | some v => some v
    | none => (extractMoneyValues l).getLast?

/-- Model of `findTotalAmount`: prioritised keyword lines bottom-up (confidence 0.85),
then the last ten lines bottom-up (0.6), then the maximum over the whole text
(0.55), else no amount (0.4). -/
def findTotalAmount (cs : List Char) : Option Nat × Nat :=
  let lines := receiptLines cs
  let prioritized := lines.filter isPrioritizedLine
  match lastLineMoney prioritized with
  | some v => (some v, 85)
  | none =>
    match lastLineMoney (lines.drop (lines.length - 10)) with
    | some v => (some v, 60)
    | none =>
      match extractMoneyValues cs with
      | [] => (none, 40)
      | v :: vs => (some (vs.foldl max v), 55)

/-- Claim-side reading of `findTotalAmount`: each bottom-up loop is a first
success over the reversed line list. -/
def findTotalAmountSpec (cs : List Char) : Option Nat × Nat :=
  let lines := receiptLines cs
  let prioritized := lines.filter isPrioritizedLine
  let bottomUp := fun (ls : List (List Char)) =>
    ls.reverse.findSome? (fun l => (extractMoneyValues l).getLast?)
  match bottomUp prioritized with
  | some v => (some v, 85)
  | none =>
    match bottomUp (lines.drop (lines.length - 10)) with
    | some v => (some v, 60)
    | none =>
      match extractMoneyValues cs with
      | [] => (none, 40)
      | v :: vs => (some (vs.foldl max v), 55)

/-- The character class kept by the merchant-line normalisation
`replace(/[^A-Za-z\s&.-]/g, '')`. -/
def merchantKeepChar (c : Char) : Bool :=
  c.isAlpha || jsWs c || c = '&' || c = '.' || c = '-'

/-- Model of `replace(/\s{2,}/g, ' ')`: collapse whitespace runs of length at least two
to a single space; a lone whitespace character is kept verbatim. -/
def collapseWs2F : Nat → List Char → List Char
  | 0, _ => []
  | _ + 1, [] => []
  | fuel + 1, c :: rest =>
    if jsWs c then
      match rest with
      | d :: _ =>
        if jsWs d then ' ' :: collapseWs2F fuel (rest.dropWhile jsWs)
        else c :: collapseWs2F fuel rest
      | [] => [c]
    else c :: collapseWs2F fuel rest

/-- See `collapseWs2F`. -/
def collapseWs2 (cs : List Char) : List Char := collapseWs2F cs.length cs

/-- Stable insertion for the descending sort
`weighted.sort((a, b) => b.score - a.score)`. -/
def insertByScore (c : List Char × Nat) :
    List (List Char × Nat) → List (List Char × Nat)
  | [] => [c]
  | d :: ds => if c.2 < d.2 then d :: insertByScore c ds else c :: d :: ds

/-- Stable sort by descending score (insertion sort); its head is the first
maximal-score element, as for the JS stable sort. -/
def sortByScoreDesc : List (List Char × Nat) → List (List Char × Nat)
  | [] => []
  | c :: rest => insertByScore c (sortByScoreDesc rest)

/-- Model of `findMerchant`: filter the first eight lines, weight the survivors, return
the cleaned text of the best one. -/
def findMerchant (cs : List Char) : Option (List Char) :=
  let lines := receiptLines cs
  let head8 := lines.take 8
  let candidates := head8.filter (fun l =>
    3 ≤ l.length && l.any (fun c => c.isAlpha) &&
      !(IGNORE_MERCHANT_LINES.any (fun ig => containsSub ig (jsLower l))))
  match candidates with
  | [] => none
  | _ :: _ =>
    let weighted := candidates.map (fun l =>
      let lower := jsLower l
      let normalized := jsTrim ((l.filter (fun c => !c.isDigit)).filter merchantKeepChar)
      let score := l.length
        + (if containsSub "mart".toList lower then 10 else 0)
        + (if containsSub "super".toList lower then 8 else 0)
        + (if containsSub "store".toList lower then 8 else 0)
        + (if containsSub "market".toList lower then 6 else 0)
      ((if normalized.isEmpty then l else normalized), score))
    match sortByScoreDesc weighted with
    | [] => none
    | w :: _ => some (jsTrim (collapseWs2 w.1))

/-! ## Receipt date locator -/

/-- Separator class `[\/\-\.]` of the date patterns. -/
def sepChar (c : Char) : Bool := c = '/' || c = '-' || c = '.'

/-- Matcher for `\d{n}`: exactly `n` digits at the head (later characters unconstrained);
returns the value and the remaining text. -/
def takeDigitsExact (n : Nat) (cs : List Char) : Option (Nat × List Char) :=
  let pre := cs.take n
  if pre.length = n && pre.all Char.isDigit then some (natOfDigits pre, cs.drop n)
  else none

/-- Matcher for `\d{1,2}` directly followed by a separator (greedy: two digits first).
If the two-digit parse succeeds but a later regex part fails, the one-digit
retry cannot succeed either (its separator position holds a digit), so no
cross-component backtracking is needed. -/
def digits12Sep (r : List Char) : Option (Nat × List Char) :=
  let two : Option (Nat × List Char) :=
    match takeDigitsExact 2 r with
    | some (v, s :: r1) => if sepChar s then some (v, r1) else none
    | _ => none
  match two with
  | some x => some x
  | none =>
    match takeDigitsExact 1 r with
    | some (v, s :: r1) => if sepChar s then some (v, r1) else none
    | _ => none

/-- Matcher for `\d{1,2}\b` (greedy; the one-digit retry after a two-digit success is
doomed, its boundary position being a digit). -/
def digits12Bnd (r : List Char) : Option Nat :=
  let two : Option Nat :=
    match takeDigitsExact 2 r with
    | some (v, r1) => if boundaryAfter r1 then some v else none
    | none => none
  match two with
  | some v => some v
  | none =>
    match takeDigitsExact 1 r with
    | some (v, r1) => if boundaryAfter r1 then some v else none
    | none => none

/-- Matcher for `\d{2,4}\b` (greedy, four digits down to two; shorter retries after a
longer success are doomed the same way). -/
def digits234Bnd (r : List Char) : Option Nat :=
  let t4 : Option Nat :=
    match takeDigitsExact 4 r with
    | some (v, r1) => if boundaryAfter r1 then some v else none
    | none => none
  match t4 with
  | some v => some v
  | none =>
    let t3 : Option Nat :=
      match takeDigitsExact 3 r with
      | some (v, r1) => if boundaryAfter r1 then some v else none
      | none => none
    match t3 with
    | some v => some v
    | none =>
      match takeDigitsExact 2 r with
      | some (v, r1) => if boundaryAfter r1 then some v else none
      | none => none

/-- Matcher for `\b(\d{4})[\/\-\.](\d{1,2})[\/\-\.](\d{1,2})\b` anchored at the current
position (the leading `\b` is checked by the scanner); returns
`(year, month, day)` raw components. -/
def tryYMDAt (cs : List Char) : Option (Nat × Nat × Nat) :=
  match takeDigitsExact 4 cs with
  | some (y, s :: r1) =>
    if sepChar s then
      match digits12Sep r1 with
      | some (m, r2) =>
        match digits12Bnd r2 with
        | some d => some (y, m, d)
        | none => none
      | none => none
    else none
  | _ => none

/-- Matcher for `\b(\d{1,2})[\/\-\.](\d{1,2})[\/\-\.](\d{2,4})\b` anchored at the current
position; returns the raw components in source order. -/
def tryMDYAt (cs : List Char) : Option (Nat × Nat × Nat) :=
  match digits12Sep cs with
  | some (c1, r1) =>
    match digits12Sep r1 with
    | some (c2, r2) =>
      match digits234Bnd r2 with
      | some y => some (c1, c2, y)
      | none => none
    | none => none
  | none => none

/-- Matcher for `\b([A-Za-z]{3,9})\s+(\d{1,2}),?\s*(\d{2,4})\b` anchored at the current
position.  A greedy letter prefix shorter than the full run is followed by a
letter where `\s+` is required, so only a full run of three to nine letters
can match.  The greedy day quantifier backtracks into the year part (for
instance on `May 123`), so both day widths are tried against the full rest. -/
def tryMonthNameAt (cs : List Char) : Option (List Char × Nat × Nat) :=
  let run := cs.takeWhile Char.isAlpha
  if 3 ≤ run.length && run.length ≤ 9 then
    let r1 := cs.drop run.length
    let w := (r1.takeWhile jsWs).length
    if w = 0 then none
    else
      let r2 := r1.drop w
      let path : Option (Nat × List Char) → Option (List Char × Nat × Nat) := fun t =>
        match t with
        | some (d, r3) =>
          let r4 := match r3 with
            | ',' :: rr => rr
            | _ => r3
          let r5 := r4.drop (r4.takeWhile jsWs).length
          match digits234Bnd r5 with
          | some y => some (run, d, y)
          | none => none
        | none => none
      match path (takeDigitsExact 2 r2) with
      | some x => some x
      | none => path (takeDigitsExact 1 r2)
  else none

/-- Leftmost-match scan for an unanchored regex whose match must start at a
`\b` followed by a word character (the `try_` functions reject a non-word
head themselves). -/
def scanDate {α : Type} (try_ : List Char → Option α) :
    Option Char → List Char → Option α
  | _, [] => none
  | prev, c :: rest =>
    if boundaryBefore prev then
      match try_ (c :: rest) with
      | some x => some x
      | none => scanDate try_ (some c) rest
    else scanDate try_ (some c) rest

/-- The month-name table of the date locator. -/
def MONTH_NAMES : List (List Char) :=
  ["january", "february", "march", "april", "may", "june", "july", "august",
   "september", "october", "november", "december"].map String.toList

/-- Model of `findReceiptDate`: normalise whitespace, then try the year-first numeric
pattern, the month-first numeric pattern (with the day/month swap applied
exactly when the second component exceeds 12 and the first does not), and the
written month-name pattern.  The JS `Date` validity test never fails for
integer components (out-of-range components roll over rather than yielding
`NaN`), so it has no counterpart here; `RDate` keeps the raw components. -/
def findReceiptDate (cs : List Char) : Option RDate :=
  let n := collapseWs cs
  match scanDate tryYMDAt none n with
  | some (y, m, d) => some ⟨y, m, d⟩
  | none =>
    match scanDate tryMDYAt none n with
    | some (c1, c2, y1) =>
      let y := if y1 < 100 then y1 + 2000 else y1
      if 12 < c2 && c1 ≤ 12 then some ⟨y, c2, c1⟩ else some ⟨y, c1, c2⟩
    | none =>
      match scanDate tryMonthNameAt none n with
      | some (word, d, y1) =>
        let y := if y1 < 100 then y1 + 2000 else y1
        match MONTH_NAMES.findIdx? (fun nm => headMatch (jsLower word) nm) with
        | some idx => some ⟨y, idx + 1, d⟩
        | none => none
      | none => none

/-! ## Receipt assembly -/

/-- Table `MERCHANT_CATEGORY_HINTS`, in object-literal insertion order. -/
def MERCHANT_CATEGORY_HINTS : List (Category × List (List Char)) :=
  [ (Category.food,
      ["restaurant", "cafe", "coffee", "bakery", "pizza", "burger", "kitchen",
       "diner", "bar", "grill", "bistro"].map String.toList),
    (Category.transport,
      ["gas", "fuel", "petrol", "station", "uber", "lyft", "taxi",
       "parking"].map String.toList),
    (Category.shopping,
      ["walmart", "target", "costco", "ikea", "best buy", "amazon", "mall",
       "mart", "store", "shop", "market"].map String.toList),
    (Category.entertainment,
      ["cinema", "theatre", "theater", "netflix", "spotify", "arcade"].map
        String.toList),
    (Category.utilities,
      ["utility", "electric", "power", "water", "internet", "telecom"].map
        String.toList),
    (Category.health,
      ["pharmacy", "clinic", "hospital", "health", "dental", "optical"].map
        String.toList),
    (Category.travel,
      ["airlines", "hotel", "resort", "airbnb", "motel", "inn"].map
        String.toList),
    (Category.other, []) ]

/-- Model of `pickCategoryFromMerchant`: hint scores are sums of matched hint lengths
(the same loop shape as the classifier, see `scoreKeywords`); first strict
maximum wins; a non-`other` winner gets `min(0.9, 0.6 + score * 0.05)`, else
fall back to `detectCategory` on the merchant text.  JS `if (!merchant)` also
catches the empty string. -/
def pickCategoryFromMerchant (merchant : Option (List Char)) : Category × Nat :=
  match merchant with
  | none => (Category.other, 40)
  | some m =>
    if m.isEmpty then (Category.other, 40)
    else
      let lower := jsLower m
      let best := MERCHANT_CATEGORY_HINTS.foldl
        (fun acc e =>
          let ls := scoreKeywords lower e.2
          if acc.2 < ls then (e.1, ls) else acc)
        (Category.other, 0)
      if best.1 ≠ Category.other then (best.1, min 90 (60 + best.2 * 5))
      else detectCategory m

/-- Model of `normalizeDescription`. -/
def normalizeDescription (value : List Char) : List Char :=
  let trimmed := jsTrim value
  if trimmed.isEmpty then "Receipt".toList else capitalize trimmed

/-- The pure tail of `parseReceiptImage` (everything after the external OCR
call produced `text`; the spec names this entry point `parseReceiptText`).
The source wraps the expense together with the raw text; the raw text being
the unchanged input, the model returns the expense.  `needsReview` is the
literal `true` of the source; `??` is JS nullish-coalescing, and the `||`
chain for the description also skips empty strings. -/
def parseReceiptText (text : List Char) : ParsedExpense :=
  let parsed := parseExpenses text
  let ruleExpense := parsed.expenses.head?
  let total := findTotalAmount text
  let merchant := findMerchant text
  let rdate := findReceiptDate text
  let amount :=
    match total.1 with
    | some a => a
    | none =>
      match ruleExpense with
      | some e => e.amount
      | none => 0
  let ruleDesc : List Char :=
    match ruleExpense with
    | some e => if !e.description.isEmpty then e.description else "Receipt".toList
    | none => "Receipt".toList
  let descSrc :=
    match merchant with
    | some m => if !m.isEmpty then m else ruleDesc
    | none => ruleDesc
  let mc := pickCategoryFromMerchant merchant
  let category :=
    if mc.1 ≠ Category.other then mc.1
    else
      match ruleExpense with
      | some e => e.category
      | none => Category.other
  let confidence :=
    if mc.1 ≠ Category.other then mc.2
    else
      match ruleExpense with
      | some e => e.confidence
      | none => total.2
  { amount := amount
    description := normalizeDescription descSrc
    category := category
    confidence := confidence
    needsReview := true
    date := rdate }

/-! ## Lemmas: stable sort and offset dedup -/

theorem mem_insertByIndex {y c : AmountCand} {l : List AmountCand} :
    y ∈ insertByIndex c l ↔ y = c ∨ y ∈ l := by
  induction l with
  | nil => simp [insertByIndex]
  | cons d ds ih =>
    simp only [insertByIndex]
    split
    · simp [ih]; tauto
    · simp

theorem sorted_insertByIndex {c : AmountCand} {l : List AmountCand}
    (h : l.Pairwise (fun a b => a.index ≤ b.index)) :
    (insertByIndex c l).Pairwise (fun a b => a.index ≤ b.index) := by
  induction l with
  | nil => simp [insertByIndex]
  | cons d ds ih =>
    rw [List.pairwise_cons] at h
    obtain ⟨hd, hds⟩ := h
    simp only [insertByIndex]
    split
    · rename_i hlt
      rw [List.pairwise_cons]
      refine ⟨?_, ih hds⟩
      intro y hy
      rcases mem_insertByIndex.mp hy with rfl | hy
      · omega
      · exact hd y hy
    · rename_i hnlt
      rw [List.pairwise_cons]
      constructor
      · intro y hy
        rcases List.mem_cons.mp hy with rfl | hy
        · omega
        · have := hd y hy; omega
      · rw [List.pairwise_cons]; exact ⟨hd, hds⟩

theorem sorted_sortByIndex (l : List AmountCand) :
    (sortByIndex l).Pairwise (fun a b => a.index ≤ b.index) := by
  induction l with
  | nil => simp [sortByIndex]
  | cons c rest ih => exact sorted_insertByIndex ih

theorem mem_sortByIndex {y : AmountCand} {l : List AmountCand} :
    y ∈ sortByIndex l ↔ y ∈ l := by
  induction l with
  | nil => simp [sortByIndex]
  | cons c rest ih => simp [sortByIndex, mem_insertByIndex, ih]

theorem find?_insertByIndex_pos {c : AmountCand} {l : List AmountCand} {k : Nat}
    (hc : c.index = k) :
    (insertByIndex c l).find? (fun y => y.index == k) = some c := by
  induction l with
  | nil => simp [insertByIndex, List.find?, hc]
  | cons d ds ih =>
    simp only [insertByIndex]
    split
    · rename_i hlt
      have hne : (d.index == k) = false := by
        simp; omega
      simp [List.find?, hne, ih]
    · simp [List.find?, hc]

theorem find?_insertByIndex_neg {c : AmountCand} {l : List AmountCand} {k : Nat}
    (hc : c.index ≠ k) :
    (insertByIndex c l).find? (fun y => y.index == k) = l.find? (fun y => y.index == k) := by
  have hcf : (c.index == k) = false := by simp [hc]
  induction l with
  | nil => simp [insertByIndex, List.find?, hcf]
  | cons d ds ih =>
    simp only [insertByIndex]
    split
    · rename_i hlt
      by_cases hd : (d.index == k) = true
      · simp [List.find?, hd]
      · simp only [Bool.not_eq_true] at hd
        simp [List.find?, hd, ih]
    · have hcf : (c.index == k) = false := by simp [hc]
      simp [List.find?, hcf]

theorem find?_sortByIndex (l : List AmountCand) (k : Nat) :
    (sortByIndex l).find? (fun y => y.index == k) = l.find? (fun y => y.index == k) := by
  induction l with
  | nil => simp [sortByIndex]
  | cons c rest ih =>
    simp only [sortByIndex]
    by_cases hc : c.index = k
    · rw [find?_insertByIndex_pos hc]
      have : (c.index == k) = true := by simp [hc]
      simp [List.find?, this]
    · rw [find?_insertByIndex_neg hc, ih]
      have : (c.index == k) = false := by simp [hc]
      simp [List.find?, this]

theorem mem_dedupRun {prev : AmountCand} {l : List AmountCand} :
    ∀ y ∈ dedupRun prev l, y ∈ l := by
  induction l generalizing prev with
  | nil => simp [dedupRun]
  | cons d ds ih =>
    intro y hy
    simp only [dedupRun] at hy
    split at hy
    · exact List.mem_cons_of_mem d (ih y hy)
    · rcases List.mem_cons.mp hy with rfl | hy
      · exact List.mem_cons_self y ds
      · exact List.mem_cons_of_mem d (ih y hy)

theorem dedupRun_gt {prev : AmountCand} {l : List AmountCand}
    (hs : l.Pairwise (fun a b => a.index ≤ b.index))
    (hg : ∀ y ∈ l, prev.index ≤ y.index) :
    ∀ y ∈ dedupRun prev l, prev.index < y.index := by
  induction l generalizing prev with
  | nil => simp [dedupRun]
  | cons d ds ih =>
    rw [List.pairwise_cons] at hs
    obtain ⟨hd, hds⟩ := hs
    intro y hy
    simp only [dedupRun] at hy
    split at hy
    · rename_i heq
      have := ih hds hd y hy
      omega
    · rename_i hne
      rcases List.mem_cons.mp hy with rfl | hy
      · have := hg y (List.mem_cons_self y ds); omega
      · have h1 := ih hds hd y hy
        have h2 := hg d (List.mem_cons_self d ds)
        omega

theorem dedupRun_pairwise {prev : AmountCand} {l : List AmountCand}
    (hs : l.Pairwise (fun a b => a.index ≤ b.index))
    (hg : ∀ y ∈ l, prev.index ≤ y.index) :
    (dedupRun prev l).Pairwise (fun a b => a.index < b.index) := by
  induction l generalizing prev with
  | nil => simp [dedupRun]
  | cons d ds ih =>
    rw [List.pairwise_cons] at hs
    obtain ⟨hd, hds⟩ := hs
    simp only [dedupRun]
    split
    · exact ih hds hd
    · rw [List.pairwise_cons]
      exact ⟨dedupRun_gt hds hd, ih hds hd⟩

theorem dedupRun_find {prev : AmountCand} {l : List AmountCand}
    (hs : l.Pairwise (fun a b => a.index ≤ b.index))
    (hg : ∀ y ∈ l, prev.index ≤ y.index) :
    ∀ c ∈ dedupRun prev l, l.find? (fun y => y.index == c.index) = some c := by
  induction l generalizing prev with
  | nil => simp [dedupRun]
  | cons d ds ih =>
    rw [List.pairwise_cons] at hs
    obtain ⟨hd, hds⟩ := hs
    intro c hc
    simp only [dedupRun] at hc
    split at hc
    · rename_i heq
      have hgt := dedupRun_gt hds hd c hc
      have hne : (d.index == c.index) = false := by simp; omega
      simp [List.find?, hne]
      exact ih hds hd c hc
    · rename_i hne
      rcases List.mem_cons.mp hc with rfl | hc
      · simp [List.find?]
      · have hgt := dedupRun_gt hds hd c hc
        have hnd : (d.index == c.index) = false := by simp; omega
        simp [List.find?, hnd]
        exact ih hds hd c hc

theorem dedupByIndex_pairwise {l : List AmountCand}
    (hs : l.Pairwise (fun a b => a.index ≤ b.index)) :
    (dedupByIndex l).Pairwise (fun a b => a.index < b.index) := by
  cases l with
  | nil => simp [dedupByIndex]
  | cons c rest =>
    rw [List.pairwise_cons] at hs
    obtain ⟨hc, hrest⟩ := hs
    simp only [dedupByIndex]
    rw [List.pairwise_cons]
    exact ⟨dedupRun_gt hrest hc, dedupRun_pairwise hrest hc⟩

theorem mem_dedupByIndex {l : List AmountCand} :
    ∀ y ∈ dedupByIndex l, y ∈ l := by
  cases l with
  | nil => simp [dedupByIndex]
  | cons c rest =>
    intro y hy
    simp only [dedupByIndex] at hy
    rcases List.mem_cons.mp hy with rfl | hy
    · exact List.mem_cons_self y rest
    · exact List.mem_cons_of_mem c (mem_dedupRun y hy)

theorem dedupByIndex_find {l : List AmountCand}
    (hs : l.Pairwise (fun a b => a.index ≤ b.index)) :
    ∀ c ∈ dedupByIndex l, l.find? (fun y => y.index == c.index) = some c := by
  cases l with
  | nil => simp [dedupByIndex]
  | cons d rest =>
    rw [List.pairwise_cons] at hs
    obtain ⟨hd, hrest⟩ := hs
    intro c hc
    simp only [dedupByIndex] at hc
    rcases List.mem_cons.mp hc with rfl | hc
    · simp [List.find?]
    · have hgt := dedupRun_gt hrest hd c hc
      have hnd : (d.index == c.index) = false := by simp; omega
      simp [List.find?, hnd]
      exact dedupRun_find hrest hd c hc

/-! ## Lemmas: scanner range invariants -/

theorem scanDollarF_range (fuel : Nat) : ∀ i cs, ∀ y ∈ scanDollarF fuel i cs,
    0 < y.amount ∧ y.amount < 10000000 := by
  induction fuel with
  | zero => intro i cs y hy; simp [scanDollarF] at hy
  | succ n ih =>
    intro i cs y hy
    cases cs with
    | nil => simp [scanDollarF] at hy
    | cons c rest =>
      simp only [scanDollarF] at hy
      split at hy
      · split at hy
        · rename_i cents len h
          rw [List.mem_append] at hy
          rcases hy with hy | hy
          · split at hy
            · rename_i hrange
              simp only [List.mem_singleton] at hy
              subst hy
              simp only [Bool.and_eq_true, decide_eq_true_eq] at hrange
              exact hrange
            · simp at hy
          · exact ih _ _ y hy
        · exact ih _ _ y hy
      · exact ih _ _ y hy

theorem scanNumSfxF_range (sfx : List Char → Option Nat) (fuel : Nat) :
    ∀ i cs, ∀ y ∈ scanNumSfxF sfx fuel i cs,
    0 < y.amount ∧ y.amount < 10000000 := by
  induction fuel with
  | zero => intro i cs y hy; simp [scanNumSfxF] at hy
  | succ n ih =>
    intro i cs y hy
    cases cs with
    | nil => simp [scanNumSfxF] at hy
    | cons c rest =>
      simp only [scanNumSfxF] at hy
      split at hy
      · split at hy
        · rename_i cents len h
          rw [List.mem_append] at hy
          rcases hy with hy | hy
          · split at hy
            · rename_i hrange
              simp only [List.mem_singleton] at hy
              subst hy
              simp only [Bool.and_eq_true, decide_eq_true_eq] at hrange
              exact hrange
            · simp at hy
          · exact ih _ _ y hy
        · exact ih _ _ y hy
      · exact ih _ _ y hy

theorem allAmountMatches_range (cs : List Char) :
    ∀ y ∈ allAmountMatches cs, 0 < y.amount ∧ y.amount < 10000000 := by
  intro y hy
  simp only [allAmountMatches, List.mem_append] at hy
  rcases hy with (hy | hy) | hy
  · exact scanDollarF_range _ _ _ y hy
  · exact scanNumSfxF_range _ _ _ _ y hy
  · exact scanNumSfxF_range _ _ _ _ y hy

/-- C1.  For every input string, `extractAmounts` returns candidates in
strictly ascending source-offset order (so no two share a start offset); every
returned value `v` satisfies `0 < v < 100000` (in cents: `0 < cents <
10000000`); each returned candidate is the first match with its offset in
pattern-scan order (`allAmountMatches` lists pattern a, then b, then c
matches, so when two patterns claim one offset the earlier pattern wins); and
the output is empty exactly when there is no match at all — the function is
total, so no input yields a failure. -/
theorem C1_extractAmounts_props (text : List Char) :
    (extractAmounts text).Pairwise (fun a b => a.index < b.index) ∧
    (∀ c ∈ extractAmounts text, 0 < c.amount ∧ c.amount < 10000000) ∧
    (∀ c ∈ extractAmounts text,
      (allAmountMatches text).find? (fun y => y.index == c.index) = some c) ∧
    (extractAmounts text = [] ↔ allAmountMatches text = []) := by
  have hsorted := sorted_sortByIndex (allAmountMatches text)
  refine ⟨dedupByIndex_pairwise hsorted, ?_, ?_, ?_, ?_⟩
  · intro c hc
    exact allAmountMatches_range text c (mem_sortByIndex.mp (mem_dedupByIndex c hc))
  · intro c hc
    rw [← find?_sortByIndex]
    exact dedupByIndex_find hsorted c hc
  · intro h
    cases hall : allAmountMatches text with
    | nil => rfl
    | cons a rest =>
      exfalso
      have ha : a ∈ sortByIndex (allAmountMatches text) :=
        mem_sortByIndex.mpr (by rw [hall]; exact List.mem_cons_self _ _)
      cases hs : sortByIndex (allAmountMatches text) with
      | nil => rw [hs] at ha; simp at ha
      | cons b bs =>
        simp only [extractAmounts, hs, dedupByIndex] at h
        simp at h
  · intro h
    simp only [extractAmounts, h]
    rfl

/-- Witness for `C1_extractAmounts_props` at the concrete input `"a $5 b"`. -/
theorem C1_extractAmounts_props_witness :
    (⟨500, 2, "$5".toList⟩ : AmountCand) ∈ extractAmounts "a $5 b".toList ∧
    (0 < (500 : Nat) ∧ (500 : Nat) < 10000000) ∧
    (allAmountMatches "a $5 b".toList).find? (fun y => y.index == 2) =
      some ⟨500, 2, "$5".toList⟩ := by
  refine ⟨by decide, ?_, ?_⟩
  · exact (C1_extractAmounts_props "a $5 b".toList).2.1 ⟨500, 2, "$5".toList⟩ (by decide)
  · exact (C1_extractAmounts_props "a $5 b".toList).2.2.1 ⟨500, 2, "$5".toList⟩ (by decide)

/-! ## Lemmas: classifier characterisation -/

theorem foldl_skip_filter_map (lower : List Char) :
    ∀ (l : List (Category × List (List Char))) (a : Category × Nat),
    l.foldl (fun acc e =>
        if e.1 = Category.other then acc
        else
          let score := scoreKeywords lower e.2
          if acc.2 < score then (e.1, score) else acc) a =
    ((l.filter (fun e => decide (e.1 ≠ Category.other))).map
        (fun e => (e.1, scoreKeywords lower e.2))).foldl
      (fun acc x => if acc.2 < x.2 then x else acc) a := by
  intro l
  induction l with
  | nil => intro a; rfl
  | cons e es ih =>
    intro a
    by_cases he : e.1 = Category.other
    · simp [List.foldl_cons, List.filter_cons, he, ih]
    · simp [List.foldl_cons, List.filter_cons, he, ih]

theorem selectFold (xs : List (Category × Nat)) :
    ∀ (b : Category) (s : Nat),
    (xs.foldr (fun p m => max p.2 m) 0 ≤ s →
        xs.foldl (fun acc x => if acc.2 < x.2 then x else acc) (b, s) = (b, s)) ∧
    (s < xs.foldr (fun p m => max p.2 m) 0 →
        (xs.foldl (fun acc x => if acc.2 < x.2 then x else acc) (b, s)).2 =
          xs.foldr (fun p m => max p.2 m) 0 ∧
        xs.find? (fun p => p.2 == xs.foldr (fun q m => max q.2 m) 0) =
          some (xs.foldl (fun acc x => if acc.2 < x.2 then x else acc) (b, s))) := by
  induction xs with
  | nil =>
    intro b s
    exact ⟨fun _ => rfl, fun h => by simp at h⟩
  | cons x xs ih =>
    obtain ⟨x1, x2⟩ := x
    intro b s
    simp only [List.foldr_cons, List.foldl_cons, List.find?_cons]
    constructor
    · intro h
      have hx2 : x2 ≤ s := le_trans (le_max_left _ _) h
      have hMs : xs.foldr (fun p m => max p.2 m) 0 ≤ s :=
        le_trans (le_max_right _ _) h
      rw [if_neg (by simpa using not_lt.mpr hx2)]
      exact (ih b s).1 hMs
    · intro h
      by_cases hx : s < x2
      · rw [if_pos (by simpa using hx)]
        rcases le_or_lt (xs.foldr (fun p m => max p.2 m) 0) x2 with hm | hm
        · have hmax : max x2 (xs.foldr (fun p m => max p.2 m) 0) = x2 :=
            max_eq_left hm
          rw [hmax]
          have hfold := (ih x1 x2).1 hm
          rw [hfold]
          refine ⟨rfl, ?_⟩
          have : ((x1, x2).2 == x2) = true := by simp
          simp [this]
        · have hmax : max x2 (xs.foldr (fun p m => max p.2 m) 0) =
              xs.foldr (fun p m => max p.2 m) 0 := max_eq_right (le_of_lt hm)
          rw [hmax]
          obtain ⟨h1, h2⟩ := (ih x1 x2).2 hm
          refine ⟨h1, ?_⟩
          have hne : ((x1, x2).2 == xs.foldr (fun q m => max q.2 m) 0) = false := by
            simp; omega
          simp only [hne]
          exact h2
      · rw [if_neg (by simpa using hx)]
        have hx2 : x2 ≤ s := not_lt.mp hx
        have hm : s < xs.foldr (fun p m => max p.2 m) 0 := by
          rcases max_cases x2 (xs.foldr (fun p m => max p.2 m) 0) with ⟨he, _⟩ | ⟨he, _⟩
          · rw [he] at h; omega
          · rw [he] at h; exact h
        have hmax : max x2 (xs.foldr (fun p m => max p.2 m) 0) =
            xs.foldr (fun p m => max p.2 m) 0 := by
          rcases max_cases x2 (xs.foldr (fun p m => max p.2 m) 0) with ⟨he, hle⟩ | ⟨he, _⟩
          · omega
          · exact he
        rw [hmax]
        obtain ⟨h1, h2⟩ := (ih b s).2 hm
        refine ⟨h1, ?_⟩
        have hne : ((x1, x2).2 == xs.foldr (fun q m => max q.2 m) 0) = false := by
          simp; omega
        simp only [hne]
        exact h2

/-- Core characterisation of `detectCategory`: when no keyword matches, the
result is `(other, 0.4)`; when the maximal score is positive, the winning
category is the first table entry (in insertion order) attaining the maximal
score, and the confidence is `min 0.95 (0.6 + score * 0.05)`. -/
theorem detect_main (text : List Char) :
    (maxScoreOf text = 0 → detectCategory text = (Category.other, 40)) ∧
    (0 < maxScoreOf text →
      (categoryScores text).find? (fun p => p.2 == maxScoreOf text) =
        some ((detectCategory text).1, maxScoreOf text) ∧
      (detectCategory text).2 = min 95 (60 + maxScoreOf text * 5)) := by
  have hdc : detectCategory text =
      (let best := CATEGORY_KEYWORDS.foldl
          (fun acc e =>
            if e.1 = Category.other then acc
            else
              let score := scoreKeywords (jsLower text) e.2
              if acc.2 < score then (e.1, score) else acc)
          (Category.other, 0);
        (best.1, if 0 < best.2 then min 95 (60 + best.2 * 5) else 40)) := rfl
  rw [foldl_skip_filter_map (jsLower text) CATEGORY_KEYWORDS (Category.other, 0)] at hdc
  have hsel := selectFold (categoryScores text) Category.other 0
  have hscores :
      (CATEGORY_KEYWORDS.filter (fun e => decide (e.1 ≠ Category.other))).map
        (fun e => (e.1, scoreKeywords (jsLower text) e.2)) = categoryScores text := rfl
  rw [hscores] at hdc
  have hmax : (categoryScores text).foldr (fun p m => max p.2 m) 0 = maxScoreOf text := rfl
  constructor
  · intro h0
    have hB := (hsel).1 (by rw [hmax, h0])
    rw [hdc, hB]
    simp
  · intro hpos
    have hlt : (0 : Nat) < (categoryScores text).foldr (fun p m => max p.2 m) 0 := by
      rw [hmax]; exact hpos
    obtain ⟨h1, h2⟩ := (hsel).2 hlt
    set B := (categoryScores text).foldl
      (fun acc x => if acc.2 < x.2 then x else acc) (Category.other, 0) with hBdef
    rw [hmax] at h1
    constructor
    · rw [hmax] at h2
      rw [h2]
      have hB : B = (B.1, maxScoreOf text) := by rw [← h1]
      have hfst : (detectCategory text).1 = B.1 := by rw [hdc]
      rw [hfst, ← hB]
    · rw [hdc]
      dsimp only
      rw [h1]
      simp [hpos]

/-- Witnessable form of the classifier confidence bound. -/
theorem detect_conf_le (text : List Char) : (detectCategory text).2 ≤ 95 := by
  rcases Nat.eq_zero_or_pos (maxScoreOf text) with h | h
  · rw [(detect_main text).1 h]; simp
  · rw [((detect_main text).2 h).2]; exact Nat.min_le_left _ _

/-- Every keyword in the category table is at least three characters long. -/
theorem keyword_len_ge3 : ∀ e ∈ CATEGORY_KEYWORDS, ∀ k ∈ e.2, 3 ≤ k.length := by decide

theorem scoreKeywords_acc (lower : List Char) :
    ∀ kws : List (List Char), (∀ k ∈ kws, 3 ≤ k.length) → ∀ s : Nat,
    kws.foldl (fun s k => if containsSub k lower then s + k.length else s) s = s ∨
    s + 3 ≤ kws.foldl (fun s k => if containsSub k lower then s + k.length else s) s := by
  intro kws
  induction kws with
  | nil => intro _ s; left; rfl
  | cons k ks ih =>
    intro h s
    simp only [List.foldl_cons]
    have hk : 3 ≤ k.length := h k (List.mem_cons_self k ks)
    have hks : ∀ k' ∈ ks, 3 ≤ k'.length := fun k' hk' => h k' (List.mem_cons_of_mem k hk')
    by_cases hc : containsSub k lower = true
    · rw [if_pos hc]
      rcases ih hks (s + k.length) with h1 | h1 <;> (right; omega)
    · rw [if_neg hc]
      exact ih hks s

theorem scoreKeywords_zero_or (lower : List Char) (kws : List (List Char))
    (h : ∀ k ∈ kws, 3 ≤ k.length) :
    scoreKeywords lower kws = 0 ∨ 3 ≤ scoreKeywords lower kws := by
  have := scoreKeywords_acc lower kws h 0
  simpa [scoreKeywords] using this

theorem mem_categoryScores (text : List Char) :
    ∀ p ∈ categoryScores text, p.1 ≠ Category.other ∧ (p.2 = 0 ∨ 3 ≤ p.2) := by
  intro p hp
  simp only [categoryScores, List.mem_map] at hp
  obtain ⟨e, he, rfl⟩ := hp
  have hef := List.mem_filter.mp he
  refine ⟨by simpa using hef.2, ?_⟩
  exact scoreKeywords_zero_or (jsLower text) e.2 (keyword_len_ge3 e hef.1)

theorem maxScore_cases (text : List Char) :
    maxScoreOf text = 0 ∨ 3 ≤ maxScoreOf text := by
  have key : ∀ l : List (Category × Nat), (∀ p ∈ l, p.2 = 0 ∨ 3 ≤ p.2) →
      l.foldr (fun p m => max p.2 m) 0 = 0 ∨ 3 ≤ l.foldr (fun p m => max p.2 m) 0 := by
    intro l
    induction l with
    | nil => intro _; left; rfl
    | cons p ps ih =>
      intro h
      simp only [List.foldr_cons]
      have hp := h p (List.mem_cons_self p ps)
      have hps := ih (fun q hq => h q (List.mem_cons_of_mem p hq))
      rcases Nat.le_total p.2 (ps.foldr (fun p m => max p.2 m) 0) with hle | hle
      · rw [Nat.max_eq_right hle]; exact hps
      · rw [Nat.max_eq_left hle]
        rcases hp with h1 | h1
        · rcases hps with h2 | h2 <;> omega
        · right; exact h1
  exact key (categoryScores text) (fun p hp => (mem_categoryScores text p hp).2)

/-- The classifier confidence is either exactly `0.4` or at least `0.75` (no
keyword is shorter than three characters). -/
theorem detect_dichotomy (text : List Char) :
    (detectCategory text).2 = 40 ∨ 75 ≤ (detectCategory text).2 := by
  rcases maxScore_cases text with h | h
  · left; rw [(detect_main text).1 h]
  · right
    have hpos : 0 < maxScoreOf text := by omega
    rw [((detect_main text).2 hpos).2]
    exact le_min (by norm_num) (by omega)

theorem detect_fst_ne_other (text : List Char) (hpos : 0 < maxScoreOf text) :
    (detectCategory text).1 ≠ Category.other := by
  obtain ⟨hfind, _⟩ := (detect_main text).2 hpos
  have hmem := List.mem_of_find?_eq_some hfind
  exact (mem_categoryScores text _ hmem).1

/-- The classifier flags low confidence exactly on the `other` fallback. -/
theorem detect_review_iff (text : List Char) :
    (detectCategory text).2 < 70 ↔ (detectCategory text).1 = Category.other := by
  rcases maxScore_cases text with h | h
  · rw [(detect_main text).1 h]
    simp
  · have hpos : 0 < maxScoreOf text := by omega
    have hconf := ((detect_main text).2 hpos).2
    have hne := detect_fst_ne_other text hpos
    constructor
    · intro hlt
      exfalso
      rw [hconf] at hlt
      have h75 : 75 ≤ min 95 (60 + maxScoreOf text * 5) := le_min (by norm_num) (by omega)
      omega
    · intro heq; exact absurd heq hne

/-! ## Lemmas: expense segmenter -/

theorem mkExpense_amount (t : List Char) (a : AmountCand) :
    (mkExpense t a).amount = a.amount := by
  simp only [mkExpense]

theorem mkExpense_confidence (t : List Char) (a : AmountCand) :
    (mkExpense t a).confidence = (detectCategory (extractDescription t a)).2 := by
  simp only [mkExpense]

theorem mkExpense_needsReview (t : List Char) (a : AmountCand) :
    (mkExpense t a).needsReview =
      decide ((detectCategory (extractDescription t a)).2 < 70) := by
  simp only [mkExpense]

theorem mkExpense_category (t : List Char) (a : AmountCand) :
    (mkExpense t a).category = (detectCategory (extractDescription t a)).1 := by
  simp only [mkExpense]

theorem extractAmounts_nil : extractAmounts ([] : List Char) = [] := rfl

theorem mem_parseExpenses_shape (input : List Char) (e : ParsedExpense)
    (he : e ∈ (parseExpenses input).expenses) :
    ∃ a ∈ extractAmounts (jsTrim input), e = mkExpense (jsTrim input) a := by
  simp only [parseExpenses] at he
  split at he
  · simp at he
  · split at he
    · simp at he
    · simp only [List.mem_map] at he
      obtain ⟨a, ha, rfl⟩ := he
      exact ⟨a, ha, rfl⟩

theorem head?_mem {α : Type} {l : List α} {e : α} (h : l.head? = some e) : e ∈ l := by
  cases l with
  | nil => simp at h
  | cons a t =>
    simp only [List.head?_cons, Option.some.injEq] at h
    subst h
    exact List.mem_cons_self _ _

/-! ## Lemmas: receipt confidence range -/

theorem findTotalAmount_conf (cs : List Char) :
    (findTotalAmount cs).2 = 85 ∨ (findTotalAmount cs).2 = 60 ∨
    (findTotalAmount cs).2 = 55 ∨ (findTotalAmount cs).2 = 40 := by
  simp only [findTotalAmount]
  split
  · left; rfl
  · split
    · right; left; rfl
    · split
      · right; right; right; rfl
      · right; right; left; rfl

theorem pickMerchant_conf_le (m : Option (List Char)) :
    (pickCategoryFromMerchant m).2 ≤ 95 := by
  cases m with
  | none => simp [pickCategoryFromMerchant]
  | some s =>
    simp only [pickCategoryFromMerchant]
    split
    · simp
    · split
      · exact le_trans (Nat.min_le_left _ _) (by norm_num)
      · exact detect_conf_le s

theorem parseReceiptText_conf_le (text : List Char) :
    (parseReceiptText text).confidence ≤ 100 := by
  have hconf : (parseReceiptText text).confidence =
      (if (pickCategoryFromMerchant (findMerchant text)).1 ≠ Category.other
       then (pickCategoryFromMerchant (findMerchant text)).2
       else
         match (parseExpenses text).expenses.head? with
         | some e => e.confidence
         | none => (findTotalAmount text).2) := rfl
  rw [hconf]
  split
  · exact le_trans (pickMerchant_conf_le _) (by norm_num)
  · split
    · rename_i e he
      obtain ⟨a, _, rfl⟩ := mem_parseExpenses_shape text e (head?_mem he)
      rw [mkExpense_confidence]
      exact le_trans (detect_conf_le _) (by norm_num)
    · rcases findTotalAmount_conf text with h | h | h | h <;> omega

/-! ## Claim theorems: classifier and segmenter -/

/-- C2.  `detectCategory` lower-cases the text, scores every category
except `other` by the summed lengths of its matching keywords (each keyword
contributing at most once, by construction of `scoreKeywords`), picks the
first category attaining the strictly highest score (`find?` over the table
in insertion order), and returns `min(0.95, 0.6 + score * 0.05)` when the
winning score is positive and `(other, 0.4)` otherwise.  It is a total
function, so it always returns a value. -/
theorem C2_detectCategory_spec (text : List Char) :
    (maxScoreOf text = 0 → detectCategory text = (Category.other, 40)) ∧
    (0 < maxScoreOf text →
      (categoryScores text).find? (fun p => p.2 == maxScoreOf text) =
        some ((detectCategory text).1, maxScoreOf text) ∧
      (detectCategory text).2 = min 95 (60 + maxScoreOf text * 5)) :=
  detect_main text

/-- Witness for `C2_detectCategory_spec` at the concrete input `"coffee"`. -/
theorem C2_detectCategory_spec_witness :
    0 < maxScoreOf "coffee".toList ∧
    ((categoryScores "coffee".toList).find?
        (fun p => p.2 == maxScoreOf "coffee".toList) =
      some ((detectCategory "coffee".toList).1, maxScoreOf "coffee".toList) ∧
    (detectCategory "coffee".toList).2 =
      min 95 (60 + maxScoreOf "coffee".toList * 5)) :=
  ⟨by decide, (C2_detectCategory_spec "coffee".toList).2 (by decide)⟩

/-- C3.  Whenever `extractAmounts` on the trimmed input finds at least one
candidate, `parseExpenses` succeeds and produces exactly one expense per
candidate, in candidate order (which is ascending source position), with the
matching amounts. -/
theorem C3_parseExpenses_amounts (input : List Char)
    (h : extractAmounts (jsTrim input) ≠ []) :
    (parseExpenses input).success = true ∧
    (parseExpenses input).expenses.map (fun e => e.amount) =
      (extractAmounts (jsTrim input)).map (fun a => a.amount) := by
  have hne : (jsTrim input).isEmpty = false := by
    cases hx : (jsTrim input).isEmpty
    · rfl
    · exfalso
      apply h
      have : jsTrim input = [] := by simpa using hx
      rw [this, extractAmounts_nil]
  have hamt : (extractAmounts (jsTrim input)).isEmpty = false := by
    cases hx : (extractAmounts (jsTrim input)).isEmpty
    · rfl
    · exact absurd (by simpa using hx) h
  constructor
  · simp [parseExpenses, hne, hamt]
  · simp only [parseExpenses, hne, hamt, Bool.false_eq_true, if_false, List.map_map]
    apply List.map_congr_left
    intro a _
    rfl

/-- Witness for `C3_parseExpenses_amounts` at the concrete input
`"$15 lunch"`. -/
theorem C3_parseExpenses_amounts_witness :
    extractAmounts (jsTrim "$15 lunch".toList) ≠ [] ∧
    ((parseExpenses "$15 lunch".toList).success = true ∧
      (parseExpenses "$15 lunch".toList).expenses.map (fun e => e.amount) =
        (extractAmounts (jsTrim "$15 lunch".toList)).map (fun a => a.amount)) :=
  ⟨by decide, C3_parseExpenses_amounts "$15 lunch".toList (by decide)⟩

/-- C4.  `parseExpenses` reports failure with an empty expense list
exactly when the trimmed input is empty or no amount candidate exists; the
three concrete spec inputs all fail that way.  The function is total, so no
input raises an exception. -/
theorem C4_failure_iff :
    (∀ input : List Char,
      ((parseExpenses input).success = false ∧ (parseExpenses input).expenses = []) ↔
        (jsTrim input = [] ∨ extractAmounts (jsTrim input) = [])) ∧
    parseExpenses "".toList = ⟨false, [], "".toList⟩ ∧
    parseExpenses "   ".toList = ⟨false, [], "   ".toList⟩ ∧
    parseExpenses "no numbers here".toList = ⟨false, [], "no numbers here".toList⟩ := by
  refine ⟨?_, by decide, by decide, by decide⟩
  intro input
  constructor
  · rintro ⟨hs, -⟩
    by_cases h1 : (jsTrim input).isEmpty = true
    · left; simpa using h1
    · by_cases h2 : (extractAmounts (jsTrim input)).isEmpty = true
      · right; simpa using h2
      · exfalso
        rw [Bool.not_eq_true] at h1 h2
        simp [parseExpenses, h1, h2] at hs
  · intro h
    rcases h with h | h
    · have h1 : (jsTrim input).isEmpty = true := by rw [h]; rfl
      simp [parseExpenses, h1]
    · have h2 : (extractAmounts (jsTrim input)).isEmpty = true := by rw [h]; rfl
      by_cases h1 : (jsTrim input).isEmpty = true
      · simp [parseExpenses, h1]
      · rw [Bool.not_eq_true] at h1
        simp [parseExpenses, h1, h2]

/-- C5 counterexample.  The claim "needsReview is true iff confidence is
below 0.7" fails for the Receipt Interpreter: on this receipt the merchant
classifier yields confidence 0.9, yet `needsReview` is hard-coded `true`. -/
theorem C5_counterexample :
    ¬(((parseReceiptText "WALMART SUPERCENTER\nTOTAL: 23.50".toList).needsReview = true) ↔
      (parseReceiptText "WALMART SUPERCENTER\nTOTAL: 23.50".toList).confidence < 70) := by
  decide

/-- C5 amended.  Confidence always lies in `[0, 1]` (in hundredths:
`≤ 100`; the lower bound is a `Nat` triviality), and `needsReview` is
`confidence < 0.7` for every expense built by `parseExpenses` — but the
Receipt Interpreter always sets `needsReview = true`, even at confidence
`≥ 0.7`. -/
theorem C5_amended :
    (∀ input : List Char, ∀ e ∈ (parseExpenses input).expenses,
      e.confidence ≤ 100 ∧ (e.needsReview = true ↔ e.confidence < 70)) ∧
    (∀ text : List Char, (parseReceiptText text).confidence ≤ 100 ∧
      (parseReceiptText text).needsReview = true) := by
  constructor
  · intro input e he
    obtain ⟨a, -, rfl⟩ := mem_parseExpenses_shape input e he
    rw [mkExpense_confidence, mkExpense_needsReview]
    exact ⟨le_trans (detect_conf_le _) (by norm_num), decide_eq_true_iff⟩
  · intro text
    exact ⟨parseReceiptText_conf_le text, rfl⟩

/-- Witness for `C5_amended` at the concrete input `"$12 uber"`. -/
theorem C5_amended_witness :
    (mkExpense (jsTrim "$12 uber".toList) ⟨1200, 0, "$12".toList⟩ ∈
      (parseExpenses "$12 uber".toList).expenses) ∧
    ((mkExpense (jsTrim "$12 uber".toList) ⟨1200, 0, "$12".toList⟩).confidence ≤ 100 ∧
      ((mkExpense (jsTrim "$12 uber".toList) ⟨1200, 0, "$12".toList⟩).needsReview = true ↔
        (mkExpense (jsTrim "$12 uber".toList) ⟨1200, 0, "$12".toList⟩).confidence < 70)) :=
  ⟨by decide, C5_amended.1 "$12 uber".toList _ (by decide)⟩

/-- C10.  An expense from `parseExpenses` needs review exactly when its
category is `other`: the classifier confidence is either exactly `0.4` (no
keyword matched) or at least `0.75` (every keyword has length at least 3), so
it is never strictly between `0.4` and `0.75`, and any match clears the `0.7`
threshold. -/
theorem C10_needsReview_iff_other :
    (∀ input : List Char, ∀ e ∈ (parseExpenses input).expenses,
      (e.needsReview = true ↔ e.category = Category.other)) ∧
    (∀ text : List Char,
      (detectCategory text).2 = 40 ∨ 75 ≤ (detectCategory text).2) := by
  constructor
  · intro input e he
    obtain ⟨a, -, rfl⟩ := mem_parseExpenses_shape input e he
    rw [mkExpense_needsReview, mkExpense_category, decide_eq_true_iff]
    exact detect_review_iff _
  · exact detect_dichotomy

/-- Witness for `C10_needsReview_iff_other` at the concrete input
`"$9 zzz"`. -/
theorem C10_needsReview_iff_other_witness :
    (mkExpense (jsTrim "$9 zzz".toList) ⟨900, 0, "$9".toList⟩ ∈
      (parseExpenses "$9 zzz".toList).expenses) ∧
    ((mkExpense (jsTrim "$9 zzz".toList) ⟨900, 0, "$9".toList⟩).needsReview = true ↔
      (mkExpense (jsTrim "$9 zzz".toList) ⟨900, 0, "$9".toList⟩).category =
        Category.other) :=
  ⟨by decide, C10_needsReview_iff_other.1 "$9 zzz".toList _ (by decide)⟩

/-! ## Lemmas: money values of the total locator -/

theorem getLast?_mem {α : Type} {l : List α} {v : α} (h : l.getLast? = some v) :
    v ∈ l := by
  induction l with
  | nil => simp at h
  | cons a t ih =>
    cases t with
    | nil =>
      simp only [List.getLast?_singleton, Option.some.injEq] at h
      subst h
      exact List.mem_cons_self _ _
    | cons b u =>
      rw [List.getLast?_cons_cons] at h
      exact List.mem_cons_of_mem a (ih h)

theorem lastLineMoney_mem :
    ∀ (ls : List (List Char)) (v : Nat), lastLineMoney ls = some v →
    ∃ l ∈ ls, (extractMoneyValues l).getLast? = some v := by
  intro ls
  induction ls with
  | nil => intro v h; simp [lastLineMoney] at h
  | cons l ls ih =>
    intro v h
    simp only [lastLineMoney] at h
    split at h
    · rename_i v' hv'
      obtain rfl : v' = v := by simpa using h
      obtain ⟨l', hl', he⟩ := ih v' hv'
      exact ⟨l', List.mem_cons_of_mem l hl', he⟩
    · exact ⟨l, List.mem_cons_self l ls, h⟩

theorem mem_extractMoneyValues_pos (cs : List Char) :
    ∀ v ∈ extractMoneyValues cs, 0 < v := by
  intro v hv
  have := List.of_mem_filter hv
  simpa using this

theorem le_foldl_max : ∀ (vs : List Nat) (a : Nat), a ≤ vs.foldl max a := by
  intro vs
  induction vs with
  | nil => intro a; exact le_refl a
  | cons v vs ih =>
    intro a
    simp only [List.foldl_cons]
    exact le_trans (le_max_left a v) (ih (max a v))

/-- C6 counterexample.  The total locator has no upper sanity bound: on
`"TOTAL 123,456.00"` it returns 123456.00, which violates the claimed
`amount < 100000`. -/
theorem C6_counterexample :
    (findTotalAmount "TOTAL 123,456.00".toList).1 = some 12345600 ∧
    ¬((12345600 : Nat) < 10000000) := by decide

/-- C6 amended.  Candidates of `extractAmounts` satisfy
`0 < amount < 100000` (in cents, `< 10000000`), but the money values of the
Receipt Interpreter (`extractMoneyValues`, and hence any amount returned by
`findTotalAmount`) are only guaranteed positive — the upper bound is not
enforced there. -/
theorem C6_amended :
    (∀ text : List Char, ∀ c ∈ extractAmounts text,
      0 < c.amount ∧ c.amount < 10000000) ∧
    (∀ text : List Char, ∀ v ∈ extractMoneyValues text, 0 < v) ∧
    (∀ (text : List Char) (v conf : Nat),
      findTotalAmount text = (some v, conf) → 0 < v) := by
  refine ⟨?_, ?_, ?_⟩
  · intro text c hc
    exact allAmountMatches_range text c (mem_sortByIndex.mp (mem_dedupByIndex c hc))
  · exact mem_extractMoneyValues_pos
  · intro text v conf h
    simp only [findTotalAmount] at h
    split at h
    · rename_i v' hv'
      simp only [Prod.mk.injEq, Option.some.injEq] at h
      obtain ⟨l, -, he⟩ := lastLineMoney_mem _ v' hv'
      have := mem_extractMoneyValues_pos l v' (getLast?_mem he)
      omega
    · split at h
      · rename_i v' hv'
        simp only [Prod.mk.injEq, Option.some.injEq] at h
        obtain ⟨l, -, he⟩ := lastLineMoney_mem _ v' hv'
        have := mem_extractMoneyValues_pos l v' (getLast?_mem he)
        omega
      · split at h
        · simp at h
        · rename_i v0 vs hvs
          simp only [Prod.mk.injEq, Option.some.injEq] at h
          have h0 : 0 < v0 :=
            mem_extractMoneyValues_pos text v0 (by rw [hvs]; exact List.mem_cons_self _ _)
          have := le_foldl_max vs v0
          omega

/-- Witness for `C6_amended` at concrete inputs. -/
theorem C6_amended_witness :
    ((⟨750, 0, "$7.50".toList⟩ : AmountCand) ∈ extractAmounts "$7.50".toList) ∧
    (0 < (⟨750, 0, "$7.50".toList⟩ : AmountCand).amount ∧
      (⟨750, 0, "$7.50".toList⟩ : AmountCand).amount < 10000000) ∧
    ((250 : Nat) ∈ extractMoneyValues "2.50".toList) ∧ (0 < (250 : Nat)) ∧
    (findTotalAmount "TOTAL 5".toList = (some 500, 85)) ∧ (0 < (500 : Nat)) :=
  ⟨by decide, C6_amended.1 "$7.50".toList _ (by decide), by decide,
    C6_amended.2.1 "2.50".toList 250 (by decide), by decide,
    C6_amended.2.2 "TOTAL 5".toList 500 85 (by decide)⟩

/-! ## Claim theorems: total locator, receipt assembly, date locator -/

theorem lastLineMoney_eq_findSome? (ls : List (List Char)) :
    lastLineMoney ls =
      ls.reverse.findSome? (fun l => (extractMoneyValues l).getLast?) := by
  induction ls with
  | nil => rfl
  | cons l ls ih =>
    simp only [lastLineMoney, List.reverse_cons, List.findSome?_append, ← ih]
    cases h : lastLineMoney ls with
    | some v => simp [Option.or]
    | none =>
      simp only [Option.or, List.findSome?]
      cases hx : (extractMoneyValues l).getLast? <;> simp

/-- C7.  `findTotalAmount` implements exactly the claimed algorithm: the
prioritised keyword lines (excluding `subtotal`/`taxable`) scanned bottom-up,
whose first hit returns its last money token at confidence 0.85; then the
last ten lines bottom-up at 0.6; then the maximum over the whole text at
0.55; else an absent amount at 0.4.  Concretely, a receipt with the line
`TOTAL: $23.50` among noise lines yields amount 23.50 at confidence 0.85. -/
theorem C7_findTotalAmount_spec :
    (∀ text : List Char, findTotalAmount text = findTotalAmountSpec text) ∧
    findTotalAmount "Coffee Shop\nBurger 5.00\nTOTAL: $23.50\nThank you".toList =
      (some 2350, 85) := by
  refine ⟨?_, by decide⟩
  intro text
  simp only [findTotalAmount, findTotalAmountSpec, lastLineMoney_eq_findSome?]

/-- C8.  The Receipt Interpreter produces exactly one `ParsedExpense`
(the function is total, so the interpretation logic never raises — each
locator only degrades its confidence), and that expense is always flagged
`needsReview = true`, whatever the confidence. -/
theorem C8_receipt_needsReview (text : List Char) :
    (parseReceiptText text).needsReview = true := by
  simp only [parseReceiptText]

/-- C9, a code bug.  The date locator swaps day and month exactly when the
*second* numeric component exceeds 12 and the first does not — the reverse of
the specified heuristic (swap when the *first* exceeds 12).  Consequently a
valid month-first date `05/20/2024` is mangled into month 20 / day 5, and the
day-first date `20/05/2024`, which the heuristic is meant to fix, is left
with month 20 as well. -/
theorem C9_date_swap_eval :
    findReceiptDate "05/20/2024".toList = some ⟨2024, 20, 5⟩ ∧
    findReceiptDate "20/05/2024".toList = some ⟨2024, 20, 5⟩ := by decide
